import Mathlib

/-!
Shallow embedding of the jaxxgen utility module (src/utils.ts) and of the
XOR stub (the unnamed source part declaring slowAES), together with the
spec-side Luhn validator, for checking the specification claims.

JS numeric behaviour relevant here is modelled explicitly: `parseInt` on a
single-character string yields the digit value or NaN, and NaN propagates
through arithmetic; an `Option Nat` with `none` for NaN captures exactly the
values that arise in `generateLuhn`.
-/

/-- JS `parseInt` applied to the one-character string `partialNumber[i]`:
a decimal digit character parses to its value, any other character gives
NaN, modelled as `none`. -/
def parseIntChar (c : Char) : Option Nat :=
  if '0' ≤ c ∧ c ≤ '9' then some (c.toNat - '0'.toNat) else none

/-- JS addition where either operand may be NaN (`none`); NaN propagates. -/
def nanAdd : Option Nat → Option Nat → Option Nat
  | some a, some b => some (a + b)
  | _, _ => none

/-- The loop body of `generateLuhn` acting on one parsed digit: when the
`shouldDouble` flag is set, the digit is doubled and reduced by 9 when the
doubled value exceeds 9 (`NaN > 9` is false in JS, so NaN passes through). -/
def luhnDigit (d : Option Nat) (shouldDouble : Bool) : Option Nat :=
  match d with
  | none => none
  | some v =>
    if shouldDouble then some (if v * 2 > 9 then v * 2 - 9 else v * 2) else some v

/-- The `for` loop of `generateLuhn`: the input list is the characters of
`partialNumber` from last to first; `shouldDouble` starts `false` and
toggles each step; `sum` starts `some 0` and absorbs each processed digit. -/
def luhnSumGo : List Char → Bool → Option Nat → Option Nat
  | [], _, sum => sum
  | c :: rest, shouldDouble, sum =>
    luhnSumGo rest (!shouldDouble) (nanAdd sum (luhnDigit (parseIntChar c) shouldDouble))

/-- The sum accumulated by `generateLuhn` over its whole input. -/
def luhnSum (s : List Char) : Option Nat :=
  luhnSumGo s.reverse false (some 0)

/-- Line 20 of src/utils.ts: `((Math.floor(sum / 10) + 1) * 10 - sum) % 10`.
For a natural `sum`, `Math.floor (sum / 10)` is `sum / 10` on `Nat`, and the
subtraction never goes below zero since `(sum / 10 + 1) * 10 > sum`. -/
def checkDigitCode (sum : Nat) : Nat :=
  ((sum / 10 + 1) * 10 - sum) % 10

/-- The check-digit formula as the spec states it: `(10 - (sum mod 10)) mod 10`. -/
def checkDigitSpec (sum : Nat) : Nat :=
  (10 - sum % 10) % 10

/-- JS number-to-string conversion for the values reachable as the check
digit: a natural number renders as its decimal digits, NaN renders as the
three characters `NaN`. -/
def jsNumToString : Option Nat → List Char
  | none => ['N', 'a', 'N']
  | some n => Nat.toDigits 10 n

/-- src/utils.ts `generateLuhn`, on the character list of its argument:
sum the digits right to left with the doubling flag initially false, then
append the check digit (or `NaN`) computed from the sum. -/
def generateLuhn (pn : List Char) : List Char :=
  pn ++ jsNumToString ((luhnSum pn).map checkDigitCode)

/-- String-level wrapper of `generateLuhn`. -/
def generateLuhnStr (s : String) : String :=
  ⟨generateLuhn s.data⟩

/-- One step of the spec-side Luhn weighted sum, on a digit value `d`:
double and reduce by 9 when the flag is set, else take the digit as is. -/
def specWeigh (d : Nat) (dbl : Bool) : Nat :=
  if dbl then (if 2 * d > 9 then 2 * d - 9 else 2 * d) else d

/-- The spec-side weighted digit sum: the input list holds the characters
right to left, and `dbl` says whether the current (rightmost remaining)
position is doubled; the flag toggles moving leftward. -/
def luhnWeightedGo : List Char → Bool → Nat
  | [], _ => 0
  | c :: rest, dbl => specWeigh (c.toNat - '0'.toNat) dbl + luhnWeightedGo rest (!dbl)

/-- Modelled from the spec: `isValid` is absent from src/ (the spec's
ChecksumEngine declares it; only `generateLuhn` is implemented). Per the
spec: the rightmost digit of the full string is position 1 and never
doubled, every digit at an even distance-from-end position is doubled with
9 subtracted when the doubled value exceeds 9, and the string is valid iff
the total is divisible by 10. -/
def isValidSpec (full : List Char) : Bool :=
  luhnWeightedGo full.reverse false % 10 == 0

/-- Modelled from the spec: the reference sum of the spec's
`computeCheckDigit` step, in which positions are counted 1,2,3,... from the
right of the input and every digit at an odd position is doubled (with 9
subtracted when the doubled value exceeds 9). -/
def specOddDoubledSum (p : List Char) : Nat :=
  luhnWeightedGo p.reverse true

/-- JS indexing `a[i % a.length] || 0` from the slowAES stub: when `a` is
empty the index is NaN, the access yields `undefined`, and `|| 0` gives 0;
otherwise the element at `i % a.length` (with `|| 0` fixing a 0 element to
0, the identity on naturals). -/
def jsIndexOr0 (a : List Nat) (i : Nat) : Nat :=
  if a.length = 0 then 0 else a.getD (i % a.length) 0

/-- The `c.map((x, i) => x ^ (a[i % a.length] || 0) ^ (f[i % f.length] || 0))`
body of `slowAES.decrypt`, with the running index made explicit. -/
def decryptGo (a f : List Nat) : Nat → List Nat → List Nat
  | _, [] => []
  | i, x :: rest => (x ^^^ jsIndexOr0 a i ^^^ jsIndexOr0 f i) :: decryptGo a f (i + 1) rest

/-- The slowAES stub's `decrypt(c, b, a, f)`; the parameter `b` does not
occur in the body. -/
def slowAES_decrypt (c : List Nat) (b : Nat) (a f : List Nat) : List Nat :=
  decryptGo a f 0 c

/-- JS regex dot: matches any character except the line terminators
LF, CR, LINE SEPARATOR and PARAGRAPH SEPARATOR. -/
def jsDot (c : Char) : Bool :=
  !(c == '\n' || c == '\r' || c == '\u2028' || c == '\u2029')

/-- The global regex replace of `formatCardNumber`: each match of four
consecutive dot-matching characters is replaced by those four characters
followed by a space; on a failed match the scan advances one character,
copying it; fewer than four remaining characters are copied verbatim. -/
def replaceG4 : List Char → List Char
  | c1 :: c2 :: c3 :: c4 :: rest =>
    if jsDot c1 && jsDot c2 && jsDot c3 && jsDot c4 then
      c1 :: c2 :: c3 :: c4 :: ' ' :: replaceG4 rest
    else
      c1 :: replaceG4 (c2 :: c3 :: c4 :: rest)
  | l => l
termination_by l => l.length
decreasing_by
  all_goals simp
  omega

/-- The character class removed by JS `String.prototype.trim`: ECMAScript
WhiteSpace and LineTerminator code points. -/
def jsWhitespace (c : Char) : Bool :=
  c == '\t' || c == '\n' || c == '\x0b' || c == '\x0c' || c == '\r' || c == ' ' ||
    c == '\u00a0' || c == '\u1680' ||
    (decide ('\u2000' ≤ c) && decide (c ≤ '\u200a')) ||
    c == '\u2028' || c == '\u2029' || c == '\u202f' || c == '\u205f' ||
    c == '\u3000' || c == '\ufeff'

/-- JS `String.prototype.trim`: drop whitespace from both ends. -/
def jsTrim (l : List Char) : List Char :=
  ((l.dropWhile jsWhitespace).reverse.dropWhile jsWhitespace).reverse

/-- src/utils.ts `formatCardNumber`: the global replace of groups of four
characters followed by `.trim()`, on the character list of the argument. -/
def formatCardNumber (number : List Char) : List Char :=
  jsTrim (replaceG4 number)

/-- String-level wrapper of `formatCardNumber`. -/
def formatCardNumberStr (s : String) : String :=
  ⟨formatCardNumber s.data⟩

/-- The claim's description of the output shape: the input split into
consecutive groups of four characters, with a final shorter group when the
length is not a multiple of four. -/
def chunks4 : List Char → List (List Char)
  | [] => []
  | c :: rest => (c :: rest.take 3) :: chunks4 (rest.drop 3)
termination_by l => l.length
decreasing_by
  simp
  omega

/-- C6: the code's check-digit expression equals the spec's expression for
every natural sum. -/
theorem C6_check_digit_formula (sum : Nat) : checkDigitCode sum = checkDigitSpec sum := by
  unfold checkDigitCode checkDigitSpec
  omega

/-- C6 witness: the two formulas agree at the concrete sum 56. -/
theorem C6_check_digit_formula_witness : checkDigitCode 56 = checkDigitSpec 56 :=
  C6_check_digit_formula 56

/-- C1: the round-trip law fails on the code. At the digit string "4" (a
non-empty digit string of length 1), `generateLuhn` returns "46", and "46"
does not validate under the spec's standard Luhn validator. -/
theorem C1_roundtrip_fails_on_code :
    generateLuhnStr "4" = "46" ∧ isValidSpec (generateLuhn ("4" : String).data) = false :=
  ⟨rfl, rfl⟩

/-- C2: the doubling rule of the code disagrees with the spec's reference
sum. On the digit string "4", the code's loop leaves the single digit
undoubled (the flag starts false), giving sum 4, while the spec's reference
sum doubles the digit at odd position 1 from the right, giving 8. -/
theorem C2_doubling_rule_differs :
    luhnSum ("4" : String).data = some 4 ∧ specOddDoubledSum ("4" : String).data = 8 := by
  decide

/-- C3: on the well-known Luhn test vector "7992739871" the code returns
"79927398714", not the spec's "79927398713": the flag starting false makes
the code double the wrong alternating positions. -/
theorem C3_vector_code_output :
    generateLuhnStr "7992739871" = "79927398714" ∧
      generateLuhnStr "7992739871" ≠ "79927398713" := by
  exact ⟨rfl, by decide⟩

/-- C4: on the single-digit input "4" the code returns "46", not the spec's
"42": with the flag starting false, the lone digit (position 1 from the
right) is never doubled, so the sum is 4 and the appended check digit 6. -/
theorem C4_single_digit_code_output :
    generateLuhnStr "4" = "46" ∧ generateLuhnStr "4" ≠ "42" := by
  exact ⟨rfl, by decide⟩

/-- C5: the code has no failure path at all. On the non-digit input "12a3"
it returns the string "12a3NaN" (JS parseInt yields NaN, which propagates
to the appended check digit), and on the empty string it returns "0"; no
InvalidInput error is raised in either case. -/
theorem C5_no_invalid_input_error :
    generateLuhnStr "12a3" = "12a3NaN" ∧ generateLuhnStr "" = "0" :=
  ⟨rfl, rfl⟩

/-- C8: determinism. The engine is a pure function of its input: two calls
on identical input strings return identical output strings. -/
theorem C8_deterministic (s t : String) (h : s = t) :
    generateLuhnStr s = generateLuhnStr t := by
  rw [h]

/-- C8 witness: determinism instantiated at the concrete input "4". -/
theorem C8_deterministic_witness :
    generateLuhnStr "4" = generateLuhnStr "4" :=
  C8_deterministic "4" "4" rfl

/-- On a list of digit characters the loop of `generateLuhn` never sees NaN:
from a numeric accumulator it produces a numeric sum. -/
theorem luhnSumGo_digits (l : List Char) :
    ∀ (dbl : Bool) (a : Nat), (∀ c ∈ l, '0' ≤ c ∧ c ≤ '9') →
      ∃ n, luhnSumGo l dbl (some a) = some n := by
  induction l with
  | nil => exact fun _ a _ => ⟨a, rfl⟩
  | cons c rest ih =>
    intro dbl a h
    have hc := h c (by simp)
    have hrest : ∀ x ∈ rest, '0' ≤ x ∧ x ≤ '9' := fun x hx => h x (by simp [hx])
    rw [luhnSumGo]
    cases dbl <;> simp [parseIntChar, hc.1, hc.2, luhnDigit, nanAdd] <;> exact ih _ _ hrest

/-- On a list of digit characters `luhnSum` is a number, not NaN. -/
theorem luhnSum_digits (s : List Char) (h : ∀ c ∈ s, '0' ≤ c ∧ c ≤ '9') :
    ∃ n, luhnSum s = some n :=
  luhnSumGo_digits s.reverse false 0 (fun c hc => h c (List.mem_reverse.mp hc))

/-- A natural number below 10 renders as its single digit character, which
lies between the characters 0 and 9. -/
theorem toDigits_lt10 : ∀ d : Nat, d < 10 →
    Nat.toDigits 10 d = [Nat.digitChar d] ∧ '0' ≤ Nat.digitChar d ∧ Nat.digitChar d ≤ '9' := by
  decide

/-- C7: output shape. On a non-empty all-digit input, `generateLuhn` returns
its input with exactly one character appended, and that character is a
decimal digit. -/
theorem C7_output_shape (s : String) (h1 : s ≠ "") (h2 : ∀ c ∈ s.data, '0' ≤ c ∧ c ≤ '9') :
    ∃ c : Char, '0' ≤ c ∧ c ≤ '9' ∧ generateLuhnStr s = ⟨s.data ++ [c]⟩ := by
  obtain ⟨n, hn⟩ := luhnSum_digits s.data h2
  have hd : checkDigitCode n < 10 := Nat.mod_lt _ (by norm_num)
  obtain ⟨he, hlo, hhi⟩ := toDigits_lt10 (checkDigitCode n) hd
  refine ⟨Nat.digitChar (checkDigitCode n), hlo, hhi, ?_⟩
  unfold generateLuhnStr generateLuhn
  rw [hn]
  simp [jsNumToString, he]

/-- C7 witness: the shape property at the concrete input "4". -/
theorem C7_output_shape_witness :
    ∃ c : Char, '0' ≤ c ∧ c ≤ '9' ∧ generateLuhnStr "4" = ⟨("4" : String).data ++ [c]⟩ :=
  C7_output_shape "4" (by decide) (by decide)

/-- Indexing into the mapped list of the slowAES stub: element `i` of the
output is element `i` of the input XORed with the two key streams at the
running index. -/
theorem decryptGo_getD (a f : List Nat) :
    ∀ (l : List Nat) (j i : Nat), i < l.length →
      (decryptGo a f j l).getD i 0 =
        l.getD i 0 ^^^ jsIndexOr0 a (j + i) ^^^ jsIndexOr0 f (j + i) := by
  intro l
  induction l with
  | nil => intro j i h; simp at h
  | cons x rest ih =>
    intro j i h
    cases i with
    | zero => simp [decryptGo]
    | succ i2 =>
      have hlt : i2 < rest.length := by simpa using Nat.lt_of_succ_lt_succ h
      have harith : j + 1 + i2 = j + (i2 + 1) := by omega
      simp only [decryptGo, List.getD_cons_succ]
      rw [ih (j + 1) i2 hlt, harith]

/-- C9: the slowAES stub is plain XOR. Each output element is the input
element XORed with the cyclically indexed elements of the two arrays (0 when
an array is empty), and the second parameter has no effect on the result. -/
theorem C9_decrypt_is_xor (c a f : List Nat) (b b2 : Nat) (i : Nat) (h : i < c.length) :
    (slowAES_decrypt c b a f).getD i 0 =
      c.getD i 0 ^^^ (if a.length = 0 then 0 else a.getD (i % a.length) 0) ^^^
        (if f.length = 0 then 0 else f.getD (i % f.length) 0) ∧
      slowAES_decrypt c b a f = slowAES_decrypt c b2 a f := by
  constructor
  · have hgo := decryptGo_getD a f c 0 i h
    simpa [slowAES_decrypt, jsIndexOr0] using hgo
  · rfl

/-- C9 witness: the XOR formula and parameter irrelevance at a concrete
ciphertext, key streams and index. -/
theorem C9_decrypt_is_xor_witness :
    (slowAES_decrypt [5, 3] 0 [1] []).getD 0 0 =
      ([5, 3] : List Nat).getD 0 0 ^^^
        (if ([1] : List Nat).length = 0 then 0
          else ([1] : List Nat).getD (0 % ([1] : List Nat).length) 0) ^^^
        (if ([] : List Nat).length = 0 then 0
          else ([] : List Nat).getD (0 % ([] : List Nat).length) 0) ∧
      slowAES_decrypt [5, 3] 0 [1] [] = slowAES_decrypt [5, 3] 7 [1] [] :=
  C9_decrypt_is_xor [5, 3] [1] [] 0 7 0 (by decide)

/-- A character that is not JS whitespace is matched by the JS regex dot. -/
theorem jsDot_of_not_ws (c : Char) (h : jsWhitespace c = false) : jsDot c = true := by
  simp [jsWhitespace] at h
  simp [jsDot]
  tauto

/-- A character that is not JS whitespace is not the space character. -/
theorem ne_space_of_not_ws (c : Char) (h : jsWhitespace c = false) : (!(c == ' ')) = true := by
  simp [jsWhitespace] at h
  simp
  tauto

/-- Intercalating a single block is the block itself. -/
theorem intercalate_one (x : List Char) : List.intercalate [' '] [x] = x := by
  simp [List.intercalate]

/-- Intercalating over a cons with a nonempty tail prepends the block and
one space. -/
theorem intercalate_cons_of_ne (x : List Char) (t : List (List Char)) (h : t ≠ []) :
    List.intercalate [' '] (x :: t) = x ++ ' ' :: List.intercalate [' '] t := by
  cases t with
  | nil => exact absurd rfl h
  | cons y ys => simp [List.intercalate, List.intersperse]

/-- chunks4 of a nonempty list is nonempty. -/
theorem chunks4_ne_nil (l : List Char) (h : l ≠ []) : chunks4 l ≠ [] := by
  cases l with
  | nil => exact absurd rfl h
  | cons a t =>
    rw [chunks4]
    simp

/-- chunks4 on at least four characters splits off the first four. -/
theorem chunks4_cons4 (c1 c2 c3 c4 : Char) (t : List Char) :
    chunks4 (c1 :: c2 :: c3 :: c4 :: t) = [c1, c2, c3, c4] :: chunks4 t := by
  rw [chunks4]
  rfl

/-- On whitespace-free input the regex replace inserts a space after every
full group of four characters: it equals the space-joined chunks, with one
trailing space exactly when the input is nonempty of length divisible by 4. -/
theorem replaceG4_clean : ∀ l : List Char, (∀ c ∈ l, jsWhitespace c = false) →
    replaceG4 l = List.intercalate [' '] (chunks4 l) ++
      (if l ≠ [] ∧ l.length % 4 = 0 then [' '] else [])
  | [], _ => by simp [replaceG4, chunks4, List.intercalate]
  | [a], _ => by simp [replaceG4, chunks4, intercalate_one]
  | [a, b], _ => by simp [replaceG4, chunks4, intercalate_one]
  | [a, b, c], _ => by simp [replaceG4, chunks4, intercalate_one]
  | c1 :: c2 :: c3 :: c4 :: t, h => by
    have h1 := jsDot_of_not_ws c1 (h c1 (by simp))
    have h2 := jsDot_of_not_ws c2 (h c2 (by simp))
    have h3 := jsDot_of_not_ws c3 (h c3 (by simp))
    have h4 := jsDot_of_not_ws c4 (h c4 (by simp))
    have hrest : ∀ x ∈ t, jsWhitespace x = false := fun x hx => h x (by simp [hx])
    rw [replaceG4]
    simp only [h1, h2, h3, h4, Bool.and_self, Bool.and_true, if_pos]
    rw [chunks4_cons4]
    by_cases ht : t = []
    · subst ht
      simp [replaceG4, chunks4, intercalate_one]
    · have ih := replaceG4_clean t hrest
      rw [ih, intercalate_cons_of_ne _ _ (chunks4_ne_nil t ht)]
      have hmod : (t.length + 1 + 1 + 1 + 1) % 4 = t.length % 4 := by omega
      simp [ht, hmod]
termination_by l => l.length
decreasing_by
  simp
  omega

/-- On nonempty whitespace-free input the space-joined chunks end in a
non-whitespace character. -/
theorem intercalate_chunks_last : ∀ l : List Char, l ≠ [] →
    (∀ c ∈ l, jsWhitespace c = false) →
    ∃ ys d, List.intercalate [' '] (chunks4 l) = ys ++ [d] ∧ jsWhitespace d = false
  | [], h, _ => absurd rfl h
  | [a], _, hc => ⟨[], a, by simp [chunks4, intercalate_one], hc a (by simp)⟩
  | [a, b], _, hc => ⟨[a], b, by simp [chunks4, intercalate_one], hc b (by simp)⟩
  | [a, b, c], _, hc => ⟨[a, b], c, by simp [chunks4, intercalate_one], hc c (by simp)⟩
  | c1 :: c2 :: c3 :: c4 :: t, _, hc => by
    by_cases ht : t = []
    · subst ht
      exact ⟨[c1, c2, c3], c4, by simp [chunks4, intercalate_one], hc c4 (by simp)⟩
    · obtain ⟨ys, d, heq, hd⟩ :=
        intercalate_chunks_last t ht (fun x hx => hc x (by simp [hx]))
      refine ⟨[c1, c2, c3, c4] ++ ' ' :: ys, d, ?_, hd⟩
      rw [chunks4_cons4, intercalate_cons_of_ne _ _ (chunks4_ne_nil t ht), heq]
      simp
termination_by l _ _ => l.length
decreasing_by
  simp
  omega

/-- The space-joined chunks of a cons start with its head character. -/
theorem intercalate_chunks_head (a : Char) (t : List Char) :
    ∃ r, List.intercalate [' '] (chunks4 (a :: t)) = a :: r := by
  rw [chunks4]
  by_cases h : chunks4 (t.drop 3) = []
  · rw [h]
    exact ⟨t.take 3, intercalate_one _⟩
  · rw [intercalate_cons_of_ne _ _ h]
    exact ⟨t.take 3 ++ ' ' :: List.intercalate [' '] (chunks4 (t.drop 3)), by simp⟩

/-- Deleting every space from the space-joined chunks of a whitespace-free
list recovers the list. -/
theorem filter_intercalate_chunks : ∀ l : List Char, (∀ c ∈ l, jsWhitespace c = false) →
    (List.intercalate [' '] (chunks4 l)).filter (fun c => !(c == ' ')) = l
  | [], _ => by simp [chunks4, List.intercalate]
  | [a], hc => by
    have ha := ne_space_of_not_ws a (hc a (by simp))
    simp [chunks4, intercalate_one, List.filter, ha]
  | [a, b], hc => by
    have ha := ne_space_of_not_ws a (hc a (by simp))
    have hb := ne_space_of_not_ws b (hc b (by simp))
    simp [chunks4, intercalate_one, List.filter, ha, hb]
  | [a, b, c], hc => by
    have ha := ne_space_of_not_ws a (hc a (by simp))
    have hb := ne_space_of_not_ws b (hc b (by simp))
    have hcc := ne_space_of_not_ws c (hc c (by simp))
    simp [chunks4, intercalate_one, List.filter, ha, hb, hcc]
  | c1 :: c2 :: c3 :: c4 :: t, hc => by
    have h1 := ne_space_of_not_ws c1 (hc c1 (by simp))
    have h2 := ne_space_of_not_ws c2 (hc c2 (by simp))
    have h3 := ne_space_of_not_ws c3 (hc c3 (by simp))
    have h4 := ne_space_of_not_ws c4 (hc c4 (by simp))
    by_cases ht : t = []
    · subst ht
      simp [chunks4, intercalate_one, List.filter, h1, h2, h3, h4]
    · have ih := filter_intercalate_chunks t (fun x hx => hc x (by simp [hx]))
      rw [chunks4_cons4, intercalate_cons_of_ne _ _ (chunks4_ne_nil t ht)]
      simp [List.filter, h1, h2, h3, h4, ih]
termination_by l _ => l.length
decreasing_by
  simp
  omega

/-- dropWhile leaves a list whose head fails the predicate untouched. -/
theorem dropWhile_of_head (a : Char) (t : List Char) (h : jsWhitespace a = false) :
    (a :: t).dropWhile jsWhitespace = a :: t := by
  simp [List.dropWhile_cons, h]

/-- Right trim keeps a list ending in a non-whitespace character. -/
theorem trimRight_append_nonws (xs : List Char) (d : Char) (h : jsWhitespace d = false) :
    ((xs ++ [d]).reverse.dropWhile jsWhitespace).reverse = xs ++ [d] := by
  simp [List.reverse_append, List.dropWhile_cons, h]

/-- Right trim removes a trailing space. -/
theorem trimRight_append_space (xs : List Char) :
    ((xs ++ [' ']).reverse.dropWhile jsWhitespace).reverse =
      (xs.reverse.dropWhile jsWhitespace).reverse := by
  have hs : jsWhitespace ' ' = true := rfl
  simp [List.reverse_append, List.dropWhile_cons, hs]

/-- On whitespace-free input, formatCardNumber is exactly the space-joined
groups of four: the replace adds at most one trailing space and the trim
removes exactly it. -/
theorem formatCardNumber_clean (l : List Char) (h : ∀ c ∈ l, jsWhitespace c = false) :
    formatCardNumber l = List.intercalate [' '] (chunks4 l) := by
  unfold formatCardNumber jsTrim
  rw [replaceG4_clean l h]
  cases l with
  | nil => simp [chunks4, List.intercalate]
  | cons a t =>
    obtain ⟨r, hr⟩ := intercalate_chunks_head a t
    obtain ⟨ys, d, hyd, hd⟩ := intercalate_chunks_last (a :: t) (by simp) h
    have ha : jsWhitespace a = false := h a (by simp)
    have hrd : a :: r = ys ++ [d] := by rw [← hr, hyd]
    rw [hr]
    rw [List.cons_append, dropWhile_of_head a _ ha]
    by_cases hcond : a :: t ≠ [] ∧ (a :: t).length % 4 = 0
    · rw [if_pos hcond]
      have hassoc : a :: (r ++ [' ']) = (a :: r) ++ [' '] := by simp
      rw [hassoc, trimRight_append_space, hrd, trimRight_append_nonws ys d hd]
    · rw [if_neg hcond]
      simp only [List.append_nil]
      rw [hrd, trimRight_append_nonws ys d hd]

/-- C10: formatting round-trip. On any whitespace-free input the formatter
returns the input split into consecutive groups of four characters joined
by single spaces (final group shorter when the length is not a multiple of
four, no leading or trailing space), and deleting every space from the
result recovers the input exactly. -/
theorem C10_format_roundtrip (s : String) (h : ∀ c ∈ s.data, jsWhitespace c = false) :
    formatCardNumberStr s = ⟨List.intercalate [' '] (chunks4 s.data)⟩ ∧
      (formatCardNumberStr s).data.filter (fun c => !(c == ' ')) = s.data := by
  have h1 := formatCardNumber_clean s.data h
  constructor
  · exact congrArg String.mk h1
  · show (formatCardNumber s.data).filter (fun c => !(c == ' ')) = s.data
    rw [h1]
    exact filter_intercalate_chunks s.data h

/-- C10 witness: the formatting round-trip at the concrete whitespace-free
input 123456789. -/
theorem C10_format_roundtrip_witness :
    formatCardNumberStr "123456789" =
      ⟨List.intercalate [' '] (chunks4 ("123456789" : String).data)⟩ ∧
      (formatCardNumberStr "123456789").data.filter (fun c => !(c == ' ')) =
        ("123456789" : String).data :=
  C10_format_roundtrip "123456789" (by decide)
